import Mathlib

/-!
Verification of the employee name-resolution core of `src/main.py`
(T&T leave-manager MCP server).

Strings are modelled as `List Char` (ASCII fragment: the repository's data
is ASCII; Python's Unicode-aware `str.lower`, `str.strip`, `\w` and `\s`
are modelled by their ASCII behaviour).  Python floats are modelled as
exact rationals (`ℚ`).  The MySQL collaborator is modelled as an in-memory
table together with failure flags; `LIKE '%term%'` under the default
case-insensitive collation is modelled as case-insensitive substring match,
and the `ORDER BY developer_name` of the exact query is abstracted to table
order (its collation lives in the external store; no claim concerns the
relative order of exact rows).
-/

namespace TTLeave

/-- Strings of the model: lists of characters. -/
abbrev Str := List Char

/-- Whitespace characters recognised by Python's `str.strip`, `str.split`
and the regex class `\s` (ASCII fragment). -/
def pyIsSpace (c : Char) : Bool :=
  c = ' ' || c = '\t' || c = '\n' || c = '\x0d' || c = '\x0b' || c = '\x0c'

/-- Lowercasing of a single character, as Python's `str.lower` acts on
ASCII: the 26 uppercase letters map to their lowercase forms, everything
else is unchanged. -/
def pyLowerChar (c : Char) : Char :=
  match c with
  | 'A' => 'a' | 'B' => 'b' | 'C' => 'c' | 'D' => 'd' | 'E' => 'e'
  | 'F' => 'f' | 'G' => 'g' | 'H' => 'h' | 'I' => 'i' | 'J' => 'j'
  | 'K' => 'k' | 'L' => 'l' | 'M' => 'm' | 'N' => 'n' | 'O' => 'o'
  | 'P' => 'p' | 'Q' => 'q' | 'R' => 'r' | 'S' => 's' | 'T' => 't'
  | 'U' => 'u' | 'V' => 'v' | 'W' => 'w' | 'X' => 'x' | 'Y' => 'y'
  | 'Z' => 'z'
  | c => c

/-- Lowercasing of a string (`name.lower()`). -/
def pyLower (s : Str) : Str := s.map pyLowerChar

/-- Characters kept by `re.sub(r'[^\w\s]', '', name)`: word characters
(`[A-Za-z0-9_]` in the ASCII fragment) and whitespace. -/
def keepChar (c : Char) : Bool :=
  c.isAlpha || c.isDigit || c = '_' || pyIsSpace c

/-- Removal of trailing whitespace (the right half of `str.strip`). -/
def dropTrail (l : Str) : Str :=
  l.foldr (fun c acc => if acc.isEmpty && pyIsSpace c then [] else c :: acc) []

/-- Python's `str.strip()`: drop leading and trailing whitespace. -/
def pyStrip (l : Str) : Str := dropTrail (l.dropWhile pyIsSpace)

/-- Worker for `re.sub(r'\s+', ' ', name)`: each maximal whitespace run is
replaced by a single `' '`.  The flag records whether the previous input
character was part of a whitespace run already emitted. -/
def collapseGo : Bool → Str → Str
  | _, [] => []
  | prevWs, c :: rest =>
    if pyIsSpace c then
      if prevWs then collapseGo true rest
      else ' ' :: collapseGo true rest
    else c :: collapseGo false rest

/-- Replacement of every whitespace run by a single space
(`re.sub(r'\s+', ' ', name)`). -/
def collapse (l : Str) : Str := collapseGo false l

/-- `NameMatcher.normalize_name` (src/main.py lines 397-402):
`name = (name or "").lower().strip()`, then `re.sub(r'[^\w\s]', '', name)`,
then `re.sub(r'\s+', ' ', name)`. -/
def normalize_name (s : Str) : Str :=
  collapse (List.filter keepChar (pyStrip (pyLower s)))

/-- Length of the longest common prefix of two strings: the length of the
matching block starting at a given pair of positions. -/
def cpl : Str → Str → Nat
  | a :: x, b :: y => if a = b then cpl x y + 1 else 0
  | _, _ => 0

/-- Levenshtein distance, written with an explicit fuel argument so that it
is structurally recursive (the kernel can evaluate it).  With
`fuel ≥ |x| + |y|` the fuel never runs out. -/
def levF : Nat → Str → Str → Nat
  | _, [], ys => ys.length
  | _, x :: xs, [] => (x :: xs).length
  | 0, _ :: _, _ :: _ => 0
  | f + 1, a :: x, b :: y =>
    if a = b then levF f x y
    else 1 + min (levF f x (b :: y)) (min (levF f (a :: x) y) (levF f x y))

/-- Levenshtein distance of two strings (`Levenshtein.distance`). -/
def lev (x y : Str) : Nat := levF (x.length + y.length) x y

/-- Selection of the longest matching block, as `difflib`'s
`find_longest_match` does without junk: among all pairs of positions, pick
the one whose common run is longest, breaking ties by the smallest position
in the first string and then in the second (the fold scans candidates in
lexicographic order and replaces the best only on a strictly longer run). -/
def pickBest (a b : Str) : Nat × Nat × Nat :=
  ((List.range (a.length + 1)).flatMap fun i =>
    (List.range (b.length + 1)).map fun j => (i, j, cpl (a.drop i) (b.drop j))).foldl
    (fun p q => if p.2.2 < q.2.2 then q else p) (0, 0, cpl a b)

/-- Total size of the matching blocks of `difflib.SequenceMatcher` (the
`M` of `ratio = 2M/T`), with fuel making the Ratcliff-Obershelp recursion
structural; `fuel ≥ |a|` suffices.  The autojunk heuristic (which only
triggers on strings of length at least 200) is not modelled. -/
def msF : Nat → Str → Str → Nat
  | 0, _, _ => 0
  | f + 1, a, b =>
    let p := pickBest a b
    if p.2.2 = 0 then 0
    else
      msF f (a.take p.1) (b.take p.2.1) + p.2.2 +
        msF f (a.drop (p.1 + p.2.2)) (b.drop (p.2.1 + p.2.2))

/-- Total matched characters across the matching blocks of
`SequenceMatcher(None, a, b)`. -/
def matchSum (a b : Str) : Nat := msF a.length a b

/-- The `SequenceMatcher.ratio()` measure, `2*M/T`, with the Python
convention that two empty strings have ratio `1.0`. -/
def ratioQ (a b : Str) : ℚ :=
  if a.length + b.length = 0 then 1
  else 2 * (matchSum a b : ℚ) / ((a.length : ℚ) + (b.length : ℚ))

/-- `NameMatcher.similarity_score` (src/main.py lines 404-420).  The flag
`useLev` selects the branch taken in the source: `true` models an available
and succeeding `Levenshtein.distance`, `false` models the fallback in which
the edit-distance similarity is replaced by `SequenceMatcher.ratio` (the
library missing, or its call raising). -/
def similarity_score (useLev : Bool) (name1 name2 : Str) : ℚ :=
  let n1 := normalize_name name1
  let n2 := normalize_name name2
  let levenshteinSim : ℚ :=
    if useLev then
      1 - (lev n1 n2 : ℚ) / (max n1.length (max n2.length 1) : ℚ)
    else ratioQ n1 n2
  let sequenceSim : ℚ := ratioQ n1 n2
  levenshteinSim * (6 / 10) + sequenceSim * (4 / 10)

/-- Worker for Python's `str.split()`: accumulate the current word
(reversed) and cut at whitespace runs, discarding empty pieces. -/
def splitGo : Str → Str → List Str
  | [], acc => if acc.isEmpty then [] else [acc.reverse]
  | c :: rest, acc =>
    if pyIsSpace c then
      if acc.isEmpty then splitGo rest [] else acc.reverse :: splitGo rest []
    else splitGo rest (c :: acc)

/-- Python's `str.split()` with no argument: split on whitespace runs. -/
def pySplit (l : Str) : List Str := splitGo l []

/-- Python's `' '.join(parts)`. -/
def joinSpace (parts : List Str) : Str := List.intercalate [' '] parts

/-- `NameMatcher.extract_name_parts` (src/main.py lines 422-432): zero
tokens give two empty parts, one token is the first name, two tokens are
first and last, and with three or more tokens the middle ones are dropped
(`parts[0]` and `parts[-1]`). -/
def extract_name_parts (full : Str) : Str × Str :=
  match pySplit full with
  | [] => ([], [])
  | [p] => (p, [])
  | [p, q] => (p, q)
  | p :: rest => (p, rest.getLastD p)

/-- Containment of `n` as a prefix of `h` (helper for substring tests). -/
def startsW : Str → Str → Bool
  | [], _ => true
  | _ :: _, [] => false
  | a :: x, b :: y => a = b && startsW x y

/-- Python's substring containment `n in h` on strings. -/
def isSub (n : Str) : Str → Bool
  | [] => n.isEmpty
  | c :: t => startsW n (c :: t) || isSub n t

/-- Projection of a `developer` row, with the columns the resolution core
reads.  `developer_name` is the display name; `designation`, `email_id`,
`mobile` and `emp_number` are nullable text columns (`none` models SQL
`NULL`); `status` is the integer status flag (`1` = active). -/
structure Employee where
  id : Nat
  developerName : Str
  designation : Option Str
  emailId : Option Str
  mobile : Option Str
  empNumber : Option Str
  status : Int
deriving DecidableEq

/-- An entry of the list built by `fuzzy_match_employee`:
`{'employee': emp, 'score': best_score, 'match_type': 'fuzzy'}`. -/
structure MatchCandidate where
  employee : Employee
  score : ℚ
  matchType : Str
deriving DecidableEq

/-- Python's `max(scores) if scores else 0`. -/
def pyMax (l : List ℚ) : ℚ :=
  match l with
  | [] => 0
  | x :: xs => xs.foldl max x

/-- The stripped full name used by the matcher:
`f"{emp.get('developer_name','')}".strip()` (src/main.py line 441). -/
def empFullName (e : Employee) : Str := pyStrip e.developerName

/-- The whole-name and swapped-order scores of `fuzzy_match_employee`
(src/main.py lines 440-448): the similarity of the search name against the
stripped full name; and, when the full name contains a space, also against
`"first last"` rebuilt from the first token and the joined remaining
tokens, and against the swapped `"last first"`. -/
def baseScores (u : Bool) (searchName : Str) (e : Employee) : List ℚ :=
  let full := empFullName e
  let base := [similarity_score u searchName full]
  if full.contains ' ' then
    let firstName := (pySplit full).headD []
    let lastName := joinSpace (pySplit full).tail
    base ++ [similarity_score u searchName (firstName ++ [' '] ++ lastName),
             similarity_score u searchName (lastName ++ [' '] ++ firstName)]
  else base

/-- The candidate-side first part of the pairwise comparison:
`emp_full_name.split()[0] if emp_full_name else ''` (src/main.py line
451; a stripped non-empty name always has a first token). -/
def candFirstTok (e : Employee) : Str :=
  if (empFullName e).isEmpty then [] else (pySplit (empFullName e)).headD []

/-- The candidate-side last part of the pairwise comparison:
`' '.join(emp_full_name.split()[1:]) if ' ' in emp_full_name else ''`
(src/main.py line 452) - the join of all tokens after the first, not the
final token alone. -/
def candRestTok (e : Employee) : Str :=
  if (empFullName e).contains ' ' then joinSpace (pySplit (empFullName e)).tail
  else []

/-- The score list built for one candidate by `fuzzy_match_employee`
(src/main.py lines 440-454): the base scores; then, when the search name
has a non-empty extracted last part, the average of the first-part and
last-part similarities against `candFirstTok` and `candRestTok`, added
only when one of the two is nonzero. -/
def scoresFor (u : Bool) (searchName : Str) (e : Employee) : List ℚ :=
  let searchParts := extract_name_parts searchName
  if searchParts.2.isEmpty then baseScores u searchName e
  else
    let firstScore := similarity_score u searchParts.1 (candFirstTok e)
    let lastScore := similarity_score u searchParts.2 (candRestTok e)
    if 0 < firstScore || 0 < lastScore then
      baseScores u searchName e ++ [(firstScore + lastScore) / 2]
    else baseScores u searchName e

/-- Modelled from the spec (claim C8 reads the matcher as splitting the
candidate name "the same way" as the search name): a variant score list
whose pairwise comparison takes the candidate parts from
`extract_name_parts` (first token and final token, middles dropped)
instead of first token and joined rest.  Everything else is as in
`scoresFor`. -/
def scoresForClaimed (u : Bool) (searchName : Str) (e : Employee) : List ℚ :=
  let searchParts := extract_name_parts searchName
  if searchParts.2.isEmpty then baseScores u searchName e
  else
    let candParts := extract_name_parts (empFullName e)
    let firstScore := similarity_score u searchParts.1 candParts.1
    let lastScore := similarity_score u searchParts.2 candParts.2
    if 0 < firstScore || 0 < lastScore then
      baseScores u searchName e ++ [(firstScore + lastScore) / 2]
    else baseScores u searchName e

/-- The matches list of `fuzzy_match_employee` before the final sort: one
entry per employee whose best score reaches the threshold, in input
order. -/
def fuzzyPre (u : Bool) (searchName : Str) (employees : List Employee)
    (threshold : ℚ) : List MatchCandidate :=
  employees.filterMap fun e =>
    let best := pyMax (scoresFor u searchName e)
    if threshold ≤ best then some ⟨e, best, "fuzzy".toList⟩ else none

/-- Insertion into a descending-sorted list, placing the new entry before
the first entry of not-larger score: the stable-sort insertion step. -/
def insertDesc (m : MatchCandidate) : List MatchCandidate → List MatchCandidate
  | [] => [m]
  | x :: xs => if m.score < x.score then x :: insertDesc m xs else m :: x :: xs

/-- Stable sort by descending score, modelling Python's
`matches.sort(key=lambda x: x['score'], reverse=True)` (a stable sort in
which entries of equal score keep their original relative order). -/
def sortDesc (l : List MatchCandidate) : List MatchCandidate :=
  l.foldr insertDesc []

/-- `NameMatcher.fuzzy_match_employee` (src/main.py lines 434-461). -/
def fuzzy_match_employee (u : Bool) (searchName : Str)
    (employees : List Employee) (threshold : ℚ) : List MatchCandidate :=
  sortDesc (fuzzyPre u searchName employees threshold)

/-- The record-store collaborator: the `developer` table plus failure
switches for the three interactions of `fetch_employees_ai` with MySQL.
`connectFails` models `get_connection()` raising (connectivity failure);
`exactFails` and `activeFails` model the respective `cursor.execute`
raising inside the `try` block (query failure). -/
structure Store where
  db : List Employee
  connectFails : Bool
  exactFails : Bool
  activeFails : Bool

/-- Matching of one nullable column against `LIKE '%term%'` under the
default case-insensitive collation; a `NULL` column never matches. -/
def likeField (term : Str) (f : Option Str) : Bool :=
  match f with
  | none => false
  | some v => isSub (pyLower term) (pyLower v)

/-- The `WHERE` clause of the exact query (src/main.py lines 486-487):
name, email, mobile or employee number contains the term. -/
def empMatchesTerm (term : Str) (e : Employee) : Bool :=
  isSub (pyLower term) (pyLower e.developerName) || likeField term e.emailId ||
    likeField term e.mobile || likeField term e.empNumber

/-- Rows returned by the exact substring query (table order; the
`ORDER BY developer_name` collation belongs to the external store). -/
def exactRows (db : List Employee) (term : Str) : List Employee :=
  db.filter (empMatchesTerm term)

/-- `fetch_employees_ai` on the `search_term` path (src/main.py lines
466-517; the `emp_id` path is not used by the resolver).  `get_connection()`
runs before the `try` block, so a connection failure escapes as a fault
(`Except.error`) whatever the term is.  Inside the `try` block the
`elif search_term:` truthiness guard (lines 479-491) sends an empty search
term to `return []` without issuing any query; a non-empty term runs the
exact query, and an exception inside the `try` block is caught and turned
into `[]`.  When the exact query returns no rows, the currently-active
records are fetched and the top 5 fuzzy matches (default threshold `0.6`)
become the result. -/
def fetch_employees_ai (u : Bool) (s : Store) (term : Str) :
    Except Unit (List Employee) :=
  if s.connectFails then .error ()
  else
    .ok
      (if term.isEmpty then []
       else if s.exactFails then []
       else
         let rows := exactRows s.db term
         if rows.isEmpty then
           if s.activeFails then []
           else
             let allActive := s.db.filter fun e => e.status = 1
             ((fuzzy_match_employee u term allActive (6 / 10)).take 5).map
               (·.employee)
         else rows)

/-- The outcome dictionary of `resolve_employee_ai`: `status` is
`'resolved'`, `'ambiguous'` or `'not_found'`, with the fields each status
carries. -/
inductive ResolutionResult where
  | resolved (employee : Employee)
  | ambiguous (employees : List Employee) (message : Str)
  | notFound (message : Str)
deriving DecidableEq

/-- The message `f"No employees found matching '{search_name}'"`. -/
def notFoundMsg (searchName : Str) : Str :=
  "No employees found matching '".toList ++ searchName ++ "'".toList

/-- The message `f"Found {len(employees)} employees. Please specify:"`. -/
def foundMsg (n : Nat) : Str :=
  "Found ".toList ++ Nat.toDigits 10 n ++ " employees. Please specify:".toList

/-- The context filter of `resolve_employee_ai` (src/main.py lines
656-667): keep employees whose lowercased designation, email, employee
number or name contains the lowercased context (nullable fields default to
the empty string via `or ''`). -/
def ctxFilter (context : Str) (employees : List Employee) : List Employee :=
  let cl := pyLower context
  employees.filter fun e =>
    isSub cl (pyLower (e.designation.getD [])) ||
      isSub cl (pyLower (e.emailId.getD [])) ||
      isSub cl (pyLower (e.empNumber.getD [])) ||
      isSub cl (pyLower e.developerName)

/-- The verdict of `resolve_employee_ai` given the fetched candidate list
(src/main.py lines 649-676): empty gives not-found, a singleton resolves,
otherwise a truthy (non-`None`, non-empty) context that narrows the set to
exactly one resolves, and every remaining case is ambiguous with the
original unfiltered list. -/
def resolveCore (employees : List Employee) (context : Option Str)
    (searchName : Str) : ResolutionResult :=
  match employees with
  | [] => .notFound (notFoundMsg searchName)
  | [e] => .resolved e
  | _ =>
    let ambig := ResolutionResult.ambiguous employees (foundMsg employees.length)
    match context with
    | none => ambig
    | some c =>
      if c.isEmpty then ambig
      else
        match ctxFilter c employees with
        | [f] => .resolved f
        | _ => ambig

/-- `resolve_employee_ai` (src/main.py lines 646-676): fetch, then decide.
The function has no exception handler of its own, so a fault raised by
`fetch_employees_ai` propagates to its caller. -/
def resolve_employee_ai (u : Bool) (s : Store) (searchName : Str)
    (context : Option Str) : Except Unit ResolutionResult :=
  match fetch_employees_ai u s searchName with
  | .error e => .error e
  | .ok employees => .ok (resolveCore employees context searchName)

section PickLemmas

variable {α : Type}

/-- A fold whose step always returns one of its two arguments preserves any
property shared by the seed and the list elements. -/
theorem foldl_pick_prop (f : α → α → α) (hf : ∀ p q, f p q = p ∨ f p q = q)
    (P : α → Prop) :
    ∀ (l : List α) (init : α), P init → (∀ x ∈ l, P x) → P (l.foldl f init) := by
  intro l
  induction l with
  | nil => intro init h0 _; simpa using h0
  | cons x xs ih =>
    intro init h0 hl
    simp only [List.foldl_cons]
    rcases hf init x with h | h
    · exact ih _ (by rw [h]; exact h0) fun y hy => hl y (List.mem_cons_of_mem _ hy)
    · exact ih _ (by rw [h]; exact hl x (List.mem_cons_self _ _)) fun y hy =>
        hl y (List.mem_cons_of_mem _ hy)

/-- The max-picking fold never decreases the key of the seed. -/
theorem foldl_pick_le (key : α → Nat) :
    ∀ (l : List α) (init : α),
      key init ≤ key (l.foldl (fun p q => if key p < key q then q else p) init) := by
  intro l
  induction l with
  | nil => intro init; simp
  | cons x xs ih =>
    intro init
    simp only [List.foldl_cons]
    refine le_trans ?_ (ih (if key init < key x then x else init))
    by_cases h : key init < key x <;> simp [h] <;> omega

/-- The max-picking fold dominates the key of every list element. -/
theorem foldl_pick_ge_mem (key : α → Nat) :
    ∀ (l : List α) (init : α) (x : α), x ∈ l →
      key x ≤ key (l.foldl (fun p q => if key p < key q then q else p) init) := by
  intro l
  induction l with
  | nil => intro init x hx; cases hx
  | cons y ys ih =>
    intro init x hx
    simp only [List.foldl_cons]
    rcases List.mem_cons.mp hx with rfl | hx
    · refine le_trans ?_ (foldl_pick_le key ys (if key init < key x then x else init))
      by_cases h : key init < key x <;> simp [h] <;> omega
    · exact ih _ x hx

end PickLemmas

/-- The common-prefix length never exceeds the first string's length. -/
theorem cpl_le_left : ∀ x y : Str, cpl x y ≤ x.length := by
  intro x
  induction x with
  | nil => intro y; cases y <;> simp [cpl]
  | cons a x ih =>
    intro y
    cases y with
    | nil => simp [cpl]
    | cons b y =>
      simp only [cpl]
      by_cases h : a = b <;> simp [h, List.length_cons]
      exact ih y

/-- The common-prefix length never exceeds the second string's length. -/
theorem cpl_le_right : ∀ x y : Str, cpl x y ≤ y.length := by
  intro x
  induction x with
  | nil => intro y; cases y <;> simp [cpl]
  | cons a x ih =>
    intro y
    cases y with
    | nil => simp [cpl]
    | cons b y =>
      simp only [cpl]
      by_cases h : a = b <;> simp [h, List.length_cons]
      exact ih y

/-- The two strings agree on their common prefix. -/
theorem cpl_take_eq : ∀ x y : Str, x.take (cpl x y) = y.take (cpl x y) := by
  intro x
  induction x with
  | nil => intro y; cases y <;> simp [cpl]
  | cons a x ih =>
    intro y
    cases y with
    | nil => simp [cpl]
    | cons b y =>
      simp only [cpl]
      by_cases h : a = b
      · rw [if_pos h, List.take_succ_cons, List.take_succ_cons, h, ih y]
      · rw [if_neg h]
        simp

/-- Specification of `pickBest`: the selected positions are in range, the
selected size is the common run at those positions, and no pair of
positions gives a longer run. -/
theorem pickBest_spec (a b : Str) :
    (pickBest a b).1 ≤ a.length ∧ (pickBest a b).2.1 ≤ b.length ∧
      (pickBest a b).2.2 = cpl (a.drop (pickBest a b).1) (b.drop (pickBest a b).2.1) ∧
      ∀ i j, i ≤ a.length → j ≤ b.length →
        cpl (a.drop i) (b.drop j) ≤ (pickBest a b).2.2 := by
  have hmemL : ∀ i j, i ≤ a.length → j ≤ b.length →
      (i, j, cpl (a.drop i) (b.drop j)) ∈
        ((List.range (a.length + 1)).flatMap fun i =>
          (List.range (b.length + 1)).map fun j => (i, j, cpl (a.drop i) (b.drop j))) := by
    intro i j hi hj
    refine List.mem_flatMap.mpr ⟨i, List.mem_range.mpr (by omega), ?_⟩
    exact List.mem_map.mpr ⟨j, List.mem_range.mpr (by omega), rfl⟩
  have hP : (pickBest a b).1 ≤ a.length ∧ (pickBest a b).2.1 ≤ b.length ∧
      (pickBest a b).2.2 = cpl (a.drop (pickBest a b).1) (b.drop (pickBest a b).2.1) := by
    unfold pickBest
    refine foldl_pick_prop
      (fun p q : Nat × Nat × Nat => if p.2.2 < q.2.2 then q else p)
      (fun p q => by by_cases h : p.2.2 < q.2.2 <;> simp [h])
      (fun t => t.1 ≤ a.length ∧ t.2.1 ≤ b.length ∧
        t.2.2 = cpl (a.drop t.1) (b.drop t.2.1)) _ _ ⟨by simp, by simp, by simp⟩ ?_
    intro x hx
    rcases List.mem_flatMap.mp hx with ⟨i, hi, hx⟩
    rcases List.mem_map.mp hx with ⟨j, hj, rfl⟩
    exact ⟨by simpa using Nat.lt_succ_iff.mp (List.mem_range.mp hi),
      by simpa using Nat.lt_succ_iff.mp (List.mem_range.mp hj), rfl⟩
  refine ⟨hP.1, hP.2.1, hP.2.2, ?_⟩
  intro i j hi hj
  have h := foldl_pick_ge_mem (fun t : Nat × Nat × Nat => t.2.2)
    ((List.range (a.length + 1)).flatMap fun i =>
      (List.range (b.length + 1)).map fun j => (i, j, cpl (a.drop i) (b.drop j)))
    (0, 0, cpl a b) _ (hmemL i j hi hj)
  exact h

/-- The matching total is bounded by both string lengths (given enough
fuel). -/
theorem msF_le : ∀ (f : Nat) (a b : Str), a.length ≤ f →
    msF f a b ≤ a.length ∧ msF f a b ≤ b.length := by
  intro f
  induction f with
  | zero => intro a b _; simp [msF]
  | succ f ih =>
    intro a b hf
    obtain ⟨hi, hj, hk, _⟩ := pickBest_spec a b
    simp only [msF]
    by_cases h0 : (pickBest a b).2.2 = 0
    · simp [h0]
    · rw [if_neg h0]
      have hkle1 : (pickBest a b).2.2 ≤ a.length - (pickBest a b).1 := by
        have := cpl_le_left (a.drop (pickBest a b).1) (b.drop (pickBest a b).2.1)
        rw [← hk] at this
        simpa using this
      have hkle2 : (pickBest a b).2.2 ≤ b.length - (pickBest a b).2.1 := by
        have := cpl_le_right (a.drop (pickBest a b).1) (b.drop (pickBest a b).2.1)
        rw [← hk] at this
        simpa using this
      have hlt1 : (a.take (pickBest a b).1).length = (pickBest a b).1 :=
        List.length_take_of_le (by omega)
      have hlt2 : (b.take (pickBest a b).2.1).length = (pickBest a b).2.1 :=
        List.length_take_of_le (by omega)
      have h1 := ih (a.take (pickBest a b).1) (b.take (pickBest a b).2.1)
        (by rw [hlt1]; omega)
      have h2 := ih (a.drop ((pickBest a b).1 + (pickBest a b).2.2))
        (b.drop ((pickBest a b).2.1 + (pickBest a b).2.2))
        (by rw [List.length_drop]; omega)
      rw [hlt1, hlt2] at h1
      rw [List.length_drop, List.length_drop] at h2
      omega

/-- Given enough fuel, a matching total that covers both strings entirely
forces the strings to be equal. -/
theorem msF_full_eq : ∀ (f : Nat) (a b : Str), a.length ≤ f →
    msF f a b = a.length → msF f a b = b.length → a = b := by
  intro f
  induction f with
  | zero =>
    intro a b hf ha hb
    simp only [msF] at ha hb
    cases a with
    | nil =>
      cases b with
      | nil => rfl
      | cons c cs => simp at hb
    | cons c cs => simp at ha
  | succ f ih =>
    intro a b hf ha hb
    obtain ⟨hi, hj, hk, _⟩ := pickBest_spec a b
    simp only [msF] at ha hb
    by_cases h0 : (pickBest a b).2.2 = 0
    · rw [if_pos h0] at ha hb
      have ha0 : a = [] := List.length_eq_zero.mp ha.symm
      have hb0 : b = [] := List.length_eq_zero.mp hb.symm
      rw [ha0, hb0]
    · rw [if_neg h0] at ha hb
      have hkle1 : (pickBest a b).2.2 ≤ a.length - (pickBest a b).1 := by
        have := cpl_le_left (a.drop (pickBest a b).1) (b.drop (pickBest a b).2.1)
        rw [← hk] at this
        simpa using this
      have hkle2 : (pickBest a b).2.2 ≤ b.length - (pickBest a b).2.1 := by
        have := cpl_le_right (a.drop (pickBest a b).1) (b.drop (pickBest a b).2.1)
        rw [← hk] at this
        simpa using this
      have hlt1 : (a.take (pickBest a b).1).length = (pickBest a b).1 :=
        List.length_take_of_le (by omega)
      have hlt2 : (b.take (pickBest a b).2.1).length = (pickBest a b).2.1 :=
        List.length_take_of_le (by omega)
      have hfuel1 : (a.take (pickBest a b).1).length ≤ f := by rw [hlt1]; omega
      have hfuel2 : (a.drop ((pickBest a b).1 + (pickBest a b).2.2)).length ≤ f := by
        rw [List.length_drop]; omega
      have hb1 := msF_le f (a.take (pickBest a b).1) (b.take (pickBest a b).2.1) hfuel1
      have hb2 := msF_le f (a.drop ((pickBest a b).1 + (pickBest a b).2.2))
        (b.drop ((pickBest a b).2.1 + (pickBest a b).2.2)) hfuel2
      rw [hlt1, hlt2] at hb1
      rw [List.length_drop, List.length_drop] at hb2
      -- the totals force each region to be matched completely
      have hm1a : msF f (a.take (pickBest a b).1) (b.take (pickBest a b).2.1) =
          (pickBest a b).1 := by omega
      have hm1b : msF f (a.take (pickBest a b).1) (b.take (pickBest a b).2.1) =
          (pickBest a b).2.1 := by omega
      have hm2a : msF f (a.drop ((pickBest a b).1 + (pickBest a b).2.2))
          (b.drop ((pickBest a b).2.1 + (pickBest a b).2.2)) =
          a.length - ((pickBest a b).1 + (pickBest a b).2.2) := by omega
      have hm2b : msF f (a.drop ((pickBest a b).1 + (pickBest a b).2.2))
          (b.drop ((pickBest a b).2.1 + (pickBest a b).2.2)) =
          b.length - ((pickBest a b).2.1 + (pickBest a b).2.2) := by omega
      have heqL : a.take (pickBest a b).1 = b.take (pickBest a b).2.1 := by
        refine ih _ _ hfuel1 ?_ ?_
        · rw [hm1a, hlt1]
        · rw [hm1b, hlt2]
      have heqR : a.drop ((pickBest a b).1 + (pickBest a b).2.2) =
          b.drop ((pickBest a b).2.1 + (pickBest a b).2.2) := by
        refine ih _ _ hfuel2 ?_ ?_
        · rw [hm2a, List.length_drop]
        · rw [hm2b, List.length_drop]
      have heqM : (a.drop (pickBest a b).1).take (pickBest a b).2.2 =
          (b.drop (pickBest a b).2.1).take (pickBest a b).2.2 := by
        rw [hk]
        exact cpl_take_eq _ _
      have hsplitA : a = a.take (pickBest a b).1 ++
          ((a.drop (pickBest a b).1).take (pickBest a b).2.2 ++
            a.drop ((pickBest a b).1 + (pickBest a b).2.2)) := by
        have h1 : (a.drop (pickBest a b).1).take (pickBest a b).2.2 ++
            (a.drop (pickBest a b).1).drop (pickBest a b).2.2 =
            a.drop (pickBest a b).1 := List.take_append_drop _ _
        have h2 : (a.drop (pickBest a b).1).drop (pickBest a b).2.2 =
            a.drop ((pickBest a b).1 + (pickBest a b).2.2) := by
          rw [List.drop_drop]
        rw [← h2, h1, List.take_append_drop]
      have hsplitB : b = b.take (pickBest a b).2.1 ++
          ((b.drop (pickBest a b).2.1).take (pickBest a b).2.2 ++
            b.drop ((pickBest a b).2.1 + (pickBest a b).2.2)) := by
        have h1 : (b.drop (pickBest a b).2.1).take (pickBest a b).2.2 ++
            (b.drop (pickBest a b).2.1).drop (pickBest a b).2.2 =
            b.drop (pickBest a b).2.1 := List.take_append_drop _ _
        have h2 : (b.drop (pickBest a b).2.1).drop (pickBest a b).2.2 =
            b.drop ((pickBest a b).2.1 + (pickBest a b).2.2) := by
          rw [List.drop_drop]
        rw [← h2, h1, List.take_append_drop]
      calc a = a.take (pickBest a b).1 ++
            ((a.drop (pickBest a b).1).take (pickBest a b).2.2 ++
              a.drop ((pickBest a b).1 + (pickBest a b).2.2)) := hsplitA
        _ = b.take (pickBest a b).2.1 ++
            ((b.drop (pickBest a b).2.1).take (pickBest a b).2.2 ++
              b.drop ((pickBest a b).2.1 + (pickBest a b).2.2)) := by
              rw [heqL, heqM, heqR]
        _ = b := hsplitB.symm

/-- The matching total of `SequenceMatcher` is bounded by both lengths. -/
theorem matchSum_le (a b : Str) : matchSum a b ≤ a.length ∧ matchSum a b ≤ b.length :=
  msF_le a.length a b le_rfl

/-- The ratio is nonnegative. -/
theorem ratioQ_nonneg (a b : Str) : 0 ≤ ratioQ a b := by
  unfold ratioQ
  by_cases h : a.length + b.length = 0
  · rw [if_pos h]; norm_num
  · rw [if_neg h]
    have hT : (0 : ℚ) < (a.length : ℚ) + (b.length : ℚ) := by
      exact_mod_cast Nat.pos_of_ne_zero h
    positivity

/-- The ratio is at most one. -/
theorem ratioQ_le_one (a b : Str) : ratioQ a b ≤ 1 := by
  unfold ratioQ
  by_cases h : a.length + b.length = 0
  · rw [if_pos h]
  · rw [if_neg h]
    have hT : (0 : ℚ) < (a.length : ℚ) + (b.length : ℚ) := by
      have h2 : 0 < a.length + b.length := Nat.pos_of_ne_zero h
      exact_mod_cast h2
    rw [div_le_one hT]
    have hM := matchSum_le a b
    have : (matchSum a b : ℚ) ≤ (a.length : ℚ) := by exact_mod_cast hM.1
    have h2 : (matchSum a b : ℚ) ≤ (b.length : ℚ) := by exact_mod_cast hM.2
    linarith

/-- A ratio of exactly one forces the two strings to be equal. -/
theorem ratioQ_eq_one (a b : Str) (h : ratioQ a b = 1) : a = b := by
  unfold ratioQ at h
  by_cases h0 : a.length + b.length = 0
  · have ha : a = [] := List.length_eq_zero.mp (by omega)
    have hb : b = [] := List.length_eq_zero.mp (by omega)
    rw [ha, hb]
  · rw [if_neg h0] at h
    have hT : (0 : ℚ) < (a.length : ℚ) + (b.length : ℚ) := by
      have h2 : 0 < a.length + b.length := Nat.pos_of_ne_zero h0
      exact_mod_cast h2
    rw [div_eq_one_iff_eq (ne_of_gt hT)] at h
    have h2M : 2 * matchSum a b = a.length + b.length := by exact_mod_cast h
    have hM := matchSum_le a b
    unfold matchSum at h2M hM
    exact msF_full_eq a.length a b le_rfl (by omega) (by omega)

/-- The Levenshtein distance is bounded by the longer length (given enough
fuel). -/
theorem levF_le_max : ∀ (f : Nat) (x y : Str), x.length + y.length ≤ f →
    levF f x y ≤ max x.length y.length := by
  intro f
  induction f with
  | zero =>
    intro x y hf
    cases x with
    | nil => simp [levF]
    | cons a xs =>
      cases y with
      | nil => simp [levF]
      | cons b ys => simp at hf
  | succ f ih =>
    intro x y hf
    cases x with
    | nil => simp [levF]
    | cons a xs =>
      cases y with
      | nil => simp [levF]
      | cons b ys =>
        simp only [levF]
        by_cases hab : a = b
        · rw [if_pos hab]
          have := ih xs ys (by simp at hf; omega)
          simp only [List.length_cons]
          omega
        · rw [if_neg hab]
          have h3 := ih xs ys (by simp at hf; omega)
          simp only [List.length_cons]
          omega

/-- A zero Levenshtein distance forces equality (given enough fuel). -/
theorem levF_eq_zero : ∀ (f : Nat) (x y : Str), x.length + y.length ≤ f →
    levF f x y = 0 → x = y := by
  intro f
  induction f with
  | zero =>
    intro x y hf h
    cases x with
    | nil =>
      cases y with
      | nil => rfl
      | cons b ys => simp [levF] at h
    | cons a xs =>
      cases y with
      | nil => simp [levF] at h
      | cons b ys => simp at hf
  | succ f ih =>
    intro x y hf h
    cases x with
    | nil =>
      cases y with
      | nil => rfl
      | cons b ys => simp [levF] at h
    | cons a xs =>
      cases y with
      | nil => simp [levF] at h
      | cons b ys =>
        simp only [levF] at h
        by_cases hab : a = b
        · rw [if_pos hab] at h
          rw [hab, ih xs ys (by simp at hf; omega) h]
        · rw [if_neg hab] at h
          omega

/-- Equal strings have Levenshtein distance zero (given enough fuel). -/
theorem levF_self : ∀ (f : Nat) (x : Str), 2 * x.length ≤ f → levF f x x = 0 := by
  intro f
  induction f with
  | zero =>
    intro x hf
    cases x with
    | nil => simp [levF]
    | cons a xs => simp at hf
  | succ f ih =>
    intro x hf
    cases x with
    | nil => simp [levF]
    | cons a xs =>
      simp only [levF, if_pos rfl]
      exact ih xs (by simp at hf; omega)

/-- The Levenshtein distance is symmetric (given enough fuel). -/
theorem levF_symm : ∀ (f : Nat) (x y : Str), x.length + y.length ≤ f →
    levF f x y = levF f y x := by
  intro f
  induction f with
  | zero =>
    intro x y hf
    cases x with
    | nil => cases y <;> simp [levF]
    | cons a xs =>
      cases y with
      | nil => simp [levF]
      | cons b ys => simp at hf
  | succ f ih =>
    intro x y hf
    cases x with
    | nil => cases y <;> simp [levF]
    | cons a xs =>
      cases y with
      | nil => simp [levF]
      | cons b ys =>
        simp only [levF]
        have hf2 : xs.length + ys.length + 2 ≤ f + 1 := by simp at hf; omega
        have h1 : levF f xs (b :: ys) = levF f (b :: ys) xs :=
          ih xs (b :: ys) (by simp; omega)
        have h2 : levF f (a :: xs) ys = levF f ys (a :: xs) :=
          ih (a :: xs) ys (by simp; omega)
        have h3 : levF f xs ys = levF f ys xs := ih xs ys (by omega)
        by_cases hab : a = b
        · rw [if_pos hab, if_pos hab.symm, h3]
        · rw [if_neg hab, if_neg (fun hba => hab hba.symm), h1, h2, h3]
          omega

/-- The distance `lev` is bounded by the longer string. -/
theorem lev_le_max (x y : Str) : lev x y ≤ max x.length y.length :=
  levF_le_max _ x y le_rfl

/-- The distance `lev` is zero exactly on equal strings. -/
theorem lev_eq_zero_iff (x y : Str) : lev x y = 0 ↔ x = y := by
  constructor
  · exact levF_eq_zero _ x y le_rfl
  · intro h
    rw [h]
    exact levF_self _ y (by omega)

/-- The distance `lev` is symmetric. -/
theorem lev_symm (x y : Str) : lev x y = lev y x := by
  unfold lev
  rw [Nat.add_comm x.length y.length]
  exact levF_symm _ x y (by omega)

/-- The edit-distance similarity term lies in the unit interval. -/
theorem levPart_bounds (n1 n2 : Str) :
    0 ≤ 1 - (lev n1 n2 : ℚ) / (max n1.length (max n2.length 1) : ℚ) ∧
      1 - (lev n1 n2 : ℚ) / (max n1.length (max n2.length 1) : ℚ) ≤ 1 := by
  have hm : 0 < max n1.length (max n2.length 1) := by omega
  have hmQ : (0 : ℚ) < (max n1.length (max n2.length 1) : ℚ) := by exact_mod_cast hm
  have hd : lev n1 n2 ≤ max n1.length (max n2.length 1) := by
    have := lev_le_max n1 n2
    omega
  have hdQ : (lev n1 n2 : ℚ) ≤ (max n1.length (max n2.length 1) : ℚ) := by
    exact_mod_cast hd
  constructor
  · have : (lev n1 n2 : ℚ) / (max n1.length (max n2.length 1) : ℚ) ≤ 1 :=
      (div_le_one hmQ).mpr hdQ
    linarith
  · have h0 : (0 : ℚ) ≤ (lev n1 n2 : ℚ) / (max n1.length (max n2.length 1) : ℚ) := by
      positivity
    linarith

/-- An edit-distance similarity term of one forces equal strings. -/
theorem levPart_eq_one (n1 n2 : Str)
    (h : 1 - (lev n1 n2 : ℚ) / (max n1.length (max n2.length 1) : ℚ) = 1) :
    n1 = n2 := by
  have hm : 0 < max n1.length (max n2.length 1) := by omega
  have hmQ : (0 : ℚ) < (max n1.length (max n2.length 1) : ℚ) := by exact_mod_cast hm
  have hdiv : (lev n1 n2 : ℚ) / (max n1.length (max n2.length 1) : ℚ) = 0 := by
    linarith
  have hd : (lev n1 n2 : ℚ) = 0 := by
    rcases div_eq_zero_iff.mp hdiv with h1 | h1
    · exact h1
    · exact absurd h1 (ne_of_gt hmQ)
  have : lev n1 n2 = 0 := by exact_mod_cast hd
  exact (lev_eq_zero_iff n1 n2).mp this

/-- Similarity scores lie in the unit interval, in both branches. -/
theorem similarity_score_bounds (u : Bool) (a b : Str) :
    0 ≤ similarity_score u a b ∧ similarity_score u a b ≤ 1 := by
  unfold similarity_score
  have hr1 := ratioQ_nonneg (normalize_name a) (normalize_name b)
  have hr2 := ratioQ_le_one (normalize_name a) (normalize_name b)
  cases u with
  | false =>
    simp only [Bool.false_eq_true, if_false]
    constructor <;> linarith
  | true =>
    simp only [if_true]
    have hl := levPart_bounds (normalize_name a) (normalize_name b)
    constructor <;> linarith [hl.1, hl.2]

/-- A similarity score of exactly one forces equal normalized strings, in
both branches. -/
theorem similarity_score_eq_one (u : Bool) (a b : Str)
    (h : similarity_score u a b = 1) :
    normalize_name a = normalize_name b := by
  unfold similarity_score at h
  have hr1 := ratioQ_nonneg (normalize_name a) (normalize_name b)
  have hr2 := ratioQ_le_one (normalize_name a) (normalize_name b)
  cases u with
  | false =>
    simp only [Bool.false_eq_true, if_false] at h
    have : ratioQ (normalize_name a) (normalize_name b) = 1 := by linarith
    exact ratioQ_eq_one _ _ this
  | true =>
    simp only [if_true] at h
    have hl := levPart_bounds (normalize_name a) (normalize_name b)
    have h1 : 1 - (lev (normalize_name a) (normalize_name b) : ℚ) /
        (max (normalize_name a).length (max (normalize_name b).length 1) : ℚ) = 1 := by
      linarith [hl.1, hl.2]
    exact levPart_eq_one _ _ h1

/-- Membership in the insertion step. -/
theorem mem_insertDesc (y m : MatchCandidate) :
    ∀ l, y ∈ insertDesc m l ↔ y = m ∨ y ∈ l := by
  intro l
  induction l with
  | nil => simp [insertDesc]
  | cons x xs ih =>
    simp only [insertDesc]
    by_cases h : m.score < x.score
    · rw [if_pos h]
      simp only [List.mem_cons, ih]
      tauto
    · rw [if_neg h]
      simp only [List.mem_cons]

/-- Length of the insertion step. -/
theorem length_insertDesc (m : MatchCandidate) :
    ∀ l, (insertDesc m l).length = l.length + 1 := by
  intro l
  induction l with
  | nil => simp [insertDesc]
  | cons x xs ih =>
    simp only [insertDesc]
    by_cases h : m.score < x.score
    · rw [if_pos h]
      simp [ih]
    · rw [if_neg h]
      simp

/-- The insertion step preserves descending sortedness. -/
theorem pairwise_insertDesc (m : MatchCandidate) :
    ∀ l, l.Pairwise (fun p q => q.score ≤ p.score) →
      (insertDesc m l).Pairwise (fun p q => q.score ≤ p.score) := by
  intro l
  induction l with
  | nil => intro _; simp [insertDesc]
  | cons x xs ih =>
    intro h
    rcases List.pairwise_cons.mp h with ⟨hx, hxs⟩
    simp only [insertDesc]
    by_cases hm : m.score < x.score
    · rw [if_pos hm]
      refine List.pairwise_cons.mpr ⟨?_, ih hxs⟩
      intro y hy
      rcases (mem_insertDesc y m xs).mp hy with rfl | hy
      · exact le_of_lt hm
      · exact hx y hy
    · rw [if_neg hm]
      refine List.pairwise_cons.mpr ⟨?_, h⟩
      intro y hy
      rcases List.mem_cons.mp hy with rfl | hy
      · exact le_of_not_lt hm
      · exact le_trans (hx y hy) (le_of_not_lt hm)

/-- The insertion step moves the new entry past exactly the entries of
strictly larger score, so filtering at any score value sees the new entry
first when its score matches and sees no change otherwise. -/
theorem filter_insertDesc (m : MatchCandidate) (q : ℚ) :
    ∀ l, (insertDesc m l).filter (fun c => decide (c.score = q)) =
      if m.score = q then m :: l.filter (fun c => decide (c.score = q))
      else l.filter (fun c => decide (c.score = q)) := by
  intro l
  induction l with
  | nil =>
    simp only [insertDesc, List.filter]
    by_cases h : m.score = q
    · simp [h]
    · simp [h]
  | cons x xs ih =>
    simp only [insertDesc]
    by_cases hm : m.score < x.score
    · rw [if_pos hm]
      by_cases hx : x.score = q
      · have hq : ¬m.score = q := fun hq => (ne_of_lt hm) (hq.trans hx.symm)
        rw [List.filter_cons, List.filter_cons]
        simp only [hx, decide_eq_true_eq, if_pos rfl, ih, if_neg hq]
      · rw [List.filter_cons, List.filter_cons]
        simp only [decide_eq_true_eq, if_neg hx, ih]
    · rw [if_neg hm]
      by_cases hq : m.score = q
      · simp [List.filter_cons, hq]
      · simp [List.filter_cons, hq]

/-- Membership in the stable sort. -/
theorem mem_sortDesc (y : MatchCandidate) :
    ∀ l, y ∈ sortDesc l ↔ y ∈ l := by
  intro l
  induction l with
  | nil => simp [sortDesc]
  | cons x xs ih =>
    simp only [sortDesc, List.foldr_cons]
    rw [mem_insertDesc]
    simp only [List.mem_cons]
    rw [show (List.foldr insertDesc [] xs) = sortDesc xs from rfl, ih]

/-- Length of the stable sort. -/
theorem length_sortDesc : ∀ l, (sortDesc l).length = l.length := by
  intro l
  induction l with
  | nil => simp [sortDesc]
  | cons x xs ih =>
    simp only [sortDesc, List.foldr_cons] at *
    rw [length_insertDesc, ih]
    simp

/-- The stable sort returns a descending-sorted list. -/
theorem pairwise_sortDesc :
    ∀ l, (sortDesc l).Pairwise (fun p q => q.score ≤ p.score) := by
  intro l
  induction l with
  | nil => simp [sortDesc]
  | cons x xs ih =>
    simp only [sortDesc, List.foldr_cons] at *
    exact pairwise_insertDesc x _ ih

/-- Stability of the sort: at every score value, the sorted list shows the
entries in their original relative order. -/
theorem filter_sortDesc (q : ℚ) :
    ∀ l, (sortDesc l).filter (fun c => decide (c.score = q)) =
      l.filter (fun c => decide (c.score = q)) := by
  intro l
  induction l with
  | nil => simp [sortDesc]
  | cons x xs ih =>
    simp only [sortDesc, List.foldr_cons] at *
    rw [filter_insertDesc]
    by_cases hx : x.score = q
    · rw [if_pos hx, ih, List.filter_cons]
      simp [hx]
    · rw [if_neg hx, ih, List.filter_cons]
      simp [hx]

/-- Every retained match comes from an input employee, reaches the
threshold, and carries that employee's best score. -/
theorem mem_fuzzyPre (u : Bool) (sn : Str) (emps : List Employee) (t : ℚ)
    (m : MatchCandidate) (hm : m ∈ fuzzyPre u sn emps t) :
    m.employee ∈ emps ∧ t ≤ m.score ∧
      m.score = pyMax (scoresFor u sn m.employee) := by
  unfold fuzzyPre at hm
  rcases List.mem_filterMap.mp hm with ⟨e, he, hfe⟩
  by_cases h : t ≤ pyMax (scoresFor u sn e)
  · rw [if_pos h] at hfe
    cases hfe
    exact ⟨he, h, rfl⟩
  · rw [if_neg h] at hfe
    cases hfe

/-- The pre-sort list never has more entries than the input. -/
theorem length_fuzzyPre_le (u : Bool) (sn : Str) (emps : List Employee) (t : ℚ) :
    (fuzzyPre u sn emps t).length ≤ emps.length :=
  List.length_filterMap_le _ _

/-- Every returned fuzzy match comes from an input employee and reaches
the threshold. -/
theorem mem_fuzzy_match (u : Bool) (sn : Str) (emps : List Employee) (t : ℚ)
    (m : MatchCandidate) (hm : m ∈ fuzzy_match_employee u sn emps t) :
    m.employee ∈ emps ∧ t ≤ m.score :=
  have h := mem_fuzzyPre u sn emps t m
    ((mem_sortDesc m (fuzzyPre u sn emps t)).mp hm)
  ⟨h.1, h.2.1⟩

/-- Lowercasing a character either fixes it or yields a lowercase
letter. -/
theorem pyLowerChar_cases (c : Char) :
    pyLowerChar c = c ∨ pyLowerChar c ∈
      ['a', 'b', 'c', 'd', 'e', 'f', 'g', 'h', 'i', 'j', 'k', 'l', 'm',
       'n', 'o', 'p', 'q', 'r', 's', 't', 'u', 'v', 'w', 'x', 'y', 'z'] := by
  unfold pyLowerChar
  split
  all_goals first
    | (right; decide)
    | (left; rfl)

/-- Lowercasing is idempotent on characters. -/
theorem pyLowerChar_idem (c : Char) :
    pyLowerChar (pyLowerChar c) = pyLowerChar c := by
  rcases pyLowerChar_cases c with h | h
  · rw [h]
    exact h
  · simp only [List.mem_cons, List.not_mem_nil, or_false] at h
    rcases h with h|h|h|h|h|h|h|h|h|h|h|h|h|h|h|h|h|h|h|h|h|h|h|h|h|h <;>
      rw [h] <;> decide

/-- Mapping a function that fixes every element of a list is the
identity. -/
theorem map_id_of_mem {f : Char → Char} :
    ∀ l : Str, (∀ c ∈ l, f c = c) → l.map f = l := by
  intro l
  induction l with
  | nil => intro _; rfl
  | cons x xs ih =>
    intro h
    simp only [List.map_cons]
    rw [h x (List.mem_cons_self _ _), ih fun c hc => h c (List.mem_cons_of_mem _ hc)]

/-- Filtering with a predicate that holds on every element is the
identity. -/
theorem filter_id_of_mem {p : Char → Bool} :
    ∀ l : Str, (∀ c ∈ l, p c = true) → l.filter p = l := by
  intro l
  induction l with
  | nil => intro _; rfl
  | cons x xs ih =>
    intro h
    rw [List.filter_cons, if_pos (h x (List.mem_cons_self _ _)),
      ih fun c hc => h c (List.mem_cons_of_mem _ hc)]

/-- Membership in a `dropWhile` implies membership in the original. -/
theorem mem_dropWhile {p : Char → Bool} :
    ∀ (l : Str) (c : Char), c ∈ l.dropWhile p → c ∈ l := by
  intro l
  induction l with
  | nil => intro c h; simpa using h
  | cons x xs ih =>
    intro c h
    rw [List.dropWhile_cons] at h
    by_cases hx : p x = true
    · rw [if_pos hx] at h
      exact List.mem_cons_of_mem _ (ih c h)
    · rw [if_neg hx] at h
      exact h

/-- Unfolding equation for `dropTrail` on a cons cell. -/
theorem dropTrail_cons (x : Char) (xs : Str) :
    dropTrail (x :: xs) =
      if (dropTrail xs).isEmpty && pyIsSpace x then [] else x :: dropTrail xs := by
  rfl

/-- Membership in `dropTrail` implies membership in the original. -/
theorem mem_dropTrail : ∀ (l : Str) (c : Char), c ∈ dropTrail l → c ∈ l := by
  intro l
  induction l with
  | nil => intro c h; simpa [dropTrail] using h
  | cons x xs ih =>
    intro c h
    rw [dropTrail_cons] at h
    by_cases hb : (dropTrail xs).isEmpty && pyIsSpace x
    · rw [if_pos hb] at h
      cases h
    · rw [if_neg hb] at h
      rcases List.mem_cons.mp h with rfl | h
      · exact List.mem_cons_self _ _
      · exact List.mem_cons_of_mem _ (ih c h)

/-- Membership in `pyStrip` implies membership in the original. -/
theorem mem_pyStrip (l : Str) (c : Char) (h : c ∈ pyStrip l) : c ∈ l :=
  mem_dropWhile l c (mem_dropTrail _ c h)

/-- No two adjacent characters are both whitespace. -/
def okPair (c d : Char) : Prop := ¬(pyIsSpace c = true ∧ pyIsSpace d = true)

/-- A character of the collapsed string is the emitted space or a
non-whitespace character of the input. -/
theorem mem_collapseGo :
    ∀ (l : Str) (b : Bool) (c : Char), c ∈ collapseGo b l →
      c = ' ' ∨ (c ∈ l ∧ pyIsSpace c = false) := by
  intro l
  induction l with
  | nil => intro b c h; simp [collapseGo] at h
  | cons x xs ih =>
    intro b c h
    simp only [collapseGo] at h
    by_cases hx : pyIsSpace x = true
    · rw [if_pos hx] at h
      by_cases hb : b
      · rw [if_pos hb] at h
        rcases ih true c h with h1 | h1
        · exact Or.inl h1
        · exact Or.inr ⟨List.mem_cons_of_mem _ h1.1, h1.2⟩
      · rw [if_neg hb] at h
        rcases List.mem_cons.mp h with rfl | h
        · exact Or.inl rfl
        · rcases ih true c h with h1 | h1
          · exact Or.inl h1
          · exact Or.inr ⟨List.mem_cons_of_mem _ h1.1, h1.2⟩
    · rw [if_neg hx] at h
      rcases List.mem_cons.mp h with rfl | h
      · exact Or.inr ⟨List.mem_cons_self _ _, by simpa using hx⟩
      · rcases ih false c h with h1 | h1
        · exact Or.inl h1
        · exact Or.inr ⟨List.mem_cons_of_mem _ h1.1, h1.2⟩

/-- The head of `collapseGo true l` is never whitespace. -/
theorem collapseGo_true_head :
    ∀ (l : Str) (c : Char) (rest : Str),
      collapseGo true l = c :: rest → pyIsSpace c = false := by
  intro l
  induction l with
  | nil => intro c rest h; simp [collapseGo] at h
  | cons x xs ih =>
    intro c rest h
    simp only [collapseGo] at h
    by_cases hx : pyIsSpace x = true
    · rw [if_pos hx] at h
      simp only [if_true] at h
      exact ih c rest h
    · rw [if_neg hx] at h
      cases h
      simpa using hx

/-- The collapsed string has no two adjacent whitespace characters. -/
theorem chain_collapseGo :
    ∀ (l : Str) (b : Bool), List.Chain' okPair (collapseGo b l) := by
  intro l
  induction l with
  | nil => intro b; simp [collapseGo]
  | cons x xs ih =>
    intro b
    simp only [collapseGo]
    by_cases hx : pyIsSpace x = true
    · rw [if_pos hx]
      by_cases hb : b
      · rw [if_pos hb]
        exact ih true
      · rw [if_neg hb]
        refine List.chain'_cons'.mpr ⟨?_, ih true⟩
        intro y hy
        cases hg : collapseGo true xs with
        | nil => rw [hg] at hy; simp at hy
        | cons z zs =>
          rw [hg] at hy
          simp only [List.head?_cons, Option.mem_def, Option.some.injEq] at hy
          intro hcon
          rw [← hy] at hcon
          rw [collapseGo_true_head xs z zs hg] at hcon
          exact absurd hcon.2 (by simp)
    · rw [if_neg hx]
      refine List.chain'_cons'.mpr ⟨?_, ih false⟩
      intro y _
      intro hcon
      exact absurd hcon.1 (by simpa using hx)

/-- Dropping a prefix preserves the no-adjacent-whitespace property. -/
theorem chain_dropWhile {p : Char → Bool} :
    ∀ l : Str, List.Chain' okPair l → List.Chain' okPair (l.dropWhile p) := by
  intro l
  induction l with
  | nil => intro h; simpa using h
  | cons x xs ih =>
    intro h
    rw [List.dropWhile_cons]
    rcases List.chain'_cons'.mp h with ⟨_, hxs⟩
    by_cases hx : p x = true
    · rw [if_pos hx]
      exact ih hxs
    · rw [if_neg hx]
      exact h

/-- A nonempty `dropTrail` keeps the head of the original list. -/
theorem head_dropTrail (x d : Char) (xs r : Str)
    (h : dropTrail (x :: xs) = d :: r) : d = x := by
  rw [dropTrail_cons] at h
  by_cases hb : (dropTrail xs).isEmpty && pyIsSpace x
  · rw [if_pos hb] at h
    cases h
  · rw [if_neg hb] at h
    exact (List.cons.injEq _ _ _ _ ▸ h).1.symm

/-- Dropping a suffix preserves the no-adjacent-whitespace property. -/
theorem chain_dropTrail :
    ∀ l : Str, List.Chain' okPair l → List.Chain' okPair (dropTrail l) := by
  intro l
  induction l with
  | nil => intro h; simpa [dropTrail] using h
  | cons x xs ih =>
    intro h
    rcases List.chain'_cons'.mp h with ⟨hx, hxs⟩
    rw [dropTrail_cons]
    by_cases hb : (dropTrail xs).isEmpty && pyIsSpace x
    · rw [if_pos hb]
      simp
    · rw [if_neg hb]
      refine List.chain'_cons'.mpr ⟨?_, ih hxs⟩
      intro y hy
      cases hg : dropTrail xs with
      | nil => rw [hg] at hy; simp at hy
      | cons d r =>
        rw [hg] at hy
        simp only [List.head?_cons, Option.mem_def, Option.some.injEq] at hy
        cases xs with
        | nil => simp [dropTrail] at hg
        | cons x2 xs2 =>
          have hd : d = x2 := head_dropTrail x2 d xs2 r hg
          have := hx x2 (by simp)
          rw [← hy, hd]
          exact this

/-- Collapsing is the identity on a string with no adjacent whitespace
whose whitespace is all plain spaces. -/
theorem collapseGo_eq_self :
    ∀ l : Str, List.Chain' okPair l → (∀ c ∈ l, pyIsSpace c = true → c = ' ') →
      collapseGo false l = l ∧
        ((∀ c rest, l = c :: rest → pyIsSpace c = false) → collapseGo true l = l) := by
  intro l
  induction l with
  | nil => intro _ _; exact ⟨rfl, fun _ => rfl⟩
  | cons x xs ih =>
    intro hch hws
    rcases List.chain'_cons'.mp hch with ⟨hx, hxs⟩
    have ihx := ih hxs fun c hc => hws c (List.mem_cons_of_mem _ hc)
    by_cases hxsp : pyIsSpace x = true
    · have hxeq : x = ' ' := hws x (List.mem_cons_self _ _) hxsp
      have htail : collapseGo true xs = xs := by
        refine ihx.2 ?_
        intro c rest hc
        have := hx c (by rw [hc]; simp)
        by_contra hcc
        simp only [Bool.not_eq_false] at hcc
        exact this ⟨hxsp, hcc⟩
      constructor
      · simp only [collapseGo, if_pos hxsp]
        rw [if_neg (by simp), htail, hxeq]
      · intro hhead
        exact absurd hxsp (by rw [hhead x xs rfl]; simp)
    · constructor
      · simp only [collapseGo, if_neg hxsp]
        rw [ihx.1]
      · intro _
        simp only [collapseGo, if_neg hxsp]
        rw [ihx.1]

/-- Every character of a normalized name is fixed by lowercasing and kept
by the punctuation filter. -/
theorem mem_normalize_name (s : Str) (c : Char) (h : c ∈ normalize_name s) :
    pyLowerChar c = c ∧ keepChar c = true := by
  unfold normalize_name collapse at h
  rcases mem_collapseGo _ false c h with rfl | ⟨hmem, _⟩
  · exact ⟨by decide, by decide⟩
  · rcases List.mem_filter.mp hmem with ⟨hmem2, hkeep⟩
    have hlow : c ∈ pyLower s := mem_pyStrip _ c hmem2
    rcases List.mem_map.mp hlow with ⟨d, _, rfl⟩
    exact ⟨pyLowerChar_idem d, hkeep⟩

/-- Whitespace in a normalized name is always the plain space. -/
theorem ws_normalize_name (s : Str) (c : Char) (h : c ∈ normalize_name s)
    (hws : pyIsSpace c = true) : c = ' ' := by
  unfold normalize_name collapse at h
  rcases mem_collapseGo _ false c h with rfl | ⟨_, hn⟩
  · rfl
  · rw [hws] at hn
    cases hn

/-- A normalized name has no two adjacent whitespace characters. -/
theorem chain_normalize_name (s : Str) :
    List.Chain' okPair (normalize_name s) := by
  unfold normalize_name collapse
  exact chain_collapseGo _ false

/-- Claim C6, counterexample: `normalize_name` is not idempotent.  On
`"a !"` the strip happens before the punctuation removal, so removing `!`
leaves a trailing space that the run-collapse keeps as a single space; a
second application strips it. -/
theorem claim_C6_counterexample :
    normalize_name ("a !".toList) = ("a ".toList) ∧
      normalize_name (normalize_name ("a !".toList)) ≠
        normalize_name ("a !".toList) := by
  constructor
  · with_unfolding_all rfl
  · exact of_decide_eq_true (by with_unfolding_all rfl)

/-- Claim C6, amended: normalization is not idempotent in general, because
removing punctuation after the strip can expose leading or trailing
whitespace; a second application only strips that again, so
`normalize_name (normalize_name x) = pyStrip (normalize_name x)` for every
string `x` (and idempotence holds exactly when the normalized form has no
edge whitespace). -/
theorem claim_C6 (s : Str) :
    normalize_name (normalize_name s) = pyStrip (normalize_name s) := by
  have hy1 : pyLower (normalize_name s) = normalize_name s :=
    map_id_of_mem _ fun c hc => (mem_normalize_name s c hc).1
  have hy2 : (pyStrip (normalize_name s)).filter keepChar =
      pyStrip (normalize_name s) :=
    filter_id_of_mem _ fun c hc => (mem_normalize_name s c (mem_pyStrip _ c hc)).2
  have hch : List.Chain' okPair (pyStrip (normalize_name s)) :=
    chain_dropTrail _ (chain_dropWhile _ (chain_normalize_name s))
  have hws : ∀ c ∈ pyStrip (normalize_name s), pyIsSpace c = true → c = ' ' :=
    fun c hc => ws_normalize_name s c (mem_pyStrip _ c hc)
  show collapse (List.filter keepChar (pyStrip (pyLower (normalize_name s)))) =
    pyStrip (normalize_name s)
  rw [hy1, hy2]
  exact (collapseGo_eq_self _ hch hws).1

/-- Claim C3: the fuzzy matcher returns at most as many entries as there
are input candidates, and every returned score reaches the threshold. -/
theorem claim_C3 (u : Bool) (sn : Str) (emps : List Employee) (t : ℚ) :
    (fuzzy_match_employee u sn emps t).length ≤ emps.length ∧
      ∀ m ∈ fuzzy_match_employee u sn emps t, t ≤ m.score := by
  constructor
  · unfold fuzzy_match_employee
    rw [length_sortDesc]
    exact length_fuzzyPre_le u sn emps t
  · intro m hm
    exact (mem_fuzzy_match u sn emps t m hm).2

/-- Claim C4: the fuzzy matcher output is ordered by descending score, and
entries of equal score keep the relative order of the pre-sort list, which
lists retained candidates in input enumeration order. -/
theorem claim_C4 (u : Bool) (sn : Str) (emps : List Employee) (t : ℚ) :
    (fuzzy_match_employee u sn emps t).Pairwise (fun p q => q.score ≤ p.score) ∧
      ∀ sc : ℚ,
        (fuzzy_match_employee u sn emps t).filter (fun m => decide (m.score = sc)) =
          (fuzzyPre u sn emps t).filter (fun m => decide (m.score = sc)) := by
  constructor
  · exact pairwise_sortDesc _
  · intro sc
    exact filter_sortDesc sc _

/-- Claim C5: similarity scores lie in the unit interval and reach `1`
only on identical normalized inputs, in both the edit-distance branch and
the sequence-alignment fallback. -/
theorem claim_C5 (u : Bool) (a b : Str) :
    0 ≤ similarity_score u a b ∧ similarity_score u a b ≤ 1 ∧
      (similarity_score u a b = 1 → normalize_name a = normalize_name b) :=
  ⟨(similarity_score_bounds u a b).1, (similarity_score_bounds u a b).2,
    similarity_score_eq_one u a b⟩

/-- Instantiation of claim C5 at a concrete pair of inputs. -/
theorem claim_C5_witness :
    0 ≤ similarity_score true ("John Doe".toList) ("Doe John".toList) ∧
      similarity_score true ("John Doe".toList) ("Doe John".toList) ≤ 1 ∧
      (similarity_score true ("John Doe".toList) ("Doe John".toList) = 1 →
        normalize_name ("John Doe".toList) = normalize_name ("Doe John".toList)) :=
  claim_C5 true ("John Doe".toList) ("Doe John".toList)

/-- Claim C7, counterexample: the similarity is not symmetric.  The
matching-block selection of `SequenceMatcher` prefers blocks early in its
first argument, so `ratio` depends on the argument order; both the
edit-distance branch and the fallback inherit the asymmetry through the
ratio term. -/
theorem claim_C7_counterexample :
    similarity_score false ("ab".toList) ("bacb".toList) ≠
        similarity_score false ("bacb".toList) ("ab".toList) ∧
      similarity_score true ("ab".toList) ("bacb".toList) ≠
        similarity_score true ("bacb".toList) ("ab".toList) := by
  refine ⟨of_decide_eq_true ?_, of_decide_eq_true ?_⟩
  · with_unfolding_all rfl
  · with_unfolding_all rfl

/-- Claim C7, amended: the edit-distance component is symmetric, so the
blended score is symmetric exactly when the sequence-alignment ratio of
the two normalized inputs is; the asymmetry of `similarity_score` comes
only from the ratio term. -/
theorem claim_C7 (u : Bool) (a b : Str)
    (h : ratioQ (normalize_name a) (normalize_name b) =
      ratioQ (normalize_name b) (normalize_name a)) :
    similarity_score u a b = similarity_score u b a := by
  unfold similarity_score
  cases u with
  | false =>
    simp only [Bool.false_eq_true, if_false]
    rw [h]
  | true =>
    simp only [if_true]
    rw [h, lev_symm, max_left_comm]

/-- Instantiation of the amended claim C7 at concrete inputs whose
normalized forms coincide. -/
theorem claim_C7_witness :
    ratioQ (normalize_name ("Ab".toList)) (normalize_name ("ab".toList)) =
        ratioQ (normalize_name ("ab".toList)) (normalize_name ("Ab".toList)) ∧
      similarity_score true ("Ab".toList) ("ab".toList) =
        similarity_score true ("ab".toList) ("Ab".toList) :=
  ⟨of_decide_eq_true (by with_unfolding_all rfl),
    claim_C7 true ("Ab".toList) ("ab".toList)
      (of_decide_eq_true (by with_unfolding_all rfl))⟩

/-- Claim C8, counterexample: on the three-token candidate name
`"a b c"` and search name `"x c"`, the score set the code builds (last
part = join of the tokens after the first, `"b c"`) differs from the score
set the claim describes (last part = final token, `"c"`), in both
similarity branches. -/
theorem claim_C8_counterexample :
    scoresFor true ("x c".toList) ⟨0, "a b c".toList, none, none, none, none, 1⟩ ≠
        scoresForClaimed true ("x c".toList)
          ⟨0, "a b c".toList, none, none, none, none, 1⟩ ∧
      scoresFor false ("x c".toList) ⟨0, "a b c".toList, none, none, none, none, 1⟩ ≠
        scoresForClaimed false ("x c".toList)
          ⟨0, "a b c".toList, none, none, none, none, 1⟩ := by
  refine ⟨of_decide_eq_true ?_, of_decide_eq_true ?_⟩
  · with_unfolding_all rfl
  · with_unfolding_all rfl

/-- Claim C8, amended: when the search name splits with a non-empty last
part, the matcher compares the search first part against the candidate
first token and the search last part against the join of the remaining
candidate tokens (not the final token alone), and appends the average of
the two exactly when one of them is nonzero. -/
theorem claim_C8 (u : Bool) (sn : Str) (e : Employee)
    (h : (extract_name_parts sn).2 ≠ []) :
    scoresFor u sn e = baseScores u sn e ++
      (if 0 < similarity_score u (extract_name_parts sn).1 (candFirstTok e) ||
          0 < similarity_score u (extract_name_parts sn).2 (candRestTok e) then
        [(similarity_score u (extract_name_parts sn).1 (candFirstTok e) +
            similarity_score u (extract_name_parts sn).2 (candRestTok e)) / 2]
      else []) := by
  unfold scoresFor
  rw [if_neg (by simpa [List.isEmpty_iff] using h)]
  dsimp only
  split
  · rfl
  · simp

/-- Instantiation of the amended claim C8 at a concrete search name and
candidate. -/
theorem claim_C8_witness :
    (extract_name_parts ("x c".toList)).2 ≠ [] ∧
      scoresFor true ("x c".toList) ⟨0, "a b c".toList, none, none, none, none, 1⟩ =
        baseScores true ("x c".toList) ⟨0, "a b c".toList, none, none, none, none, 1⟩ ++
          (if 0 < similarity_score true (extract_name_parts ("x c".toList)).1
                (candFirstTok ⟨0, "a b c".toList, none, none, none, none, 1⟩) ||
              0 < similarity_score true (extract_name_parts ("x c".toList)).2
                (candRestTok ⟨0, "a b c".toList, none, none, none, none, 1⟩) then
            [(similarity_score true (extract_name_parts ("x c".toList)).1
                (candFirstTok ⟨0, "a b c".toList, none, none, none, none, 1⟩) +
                similarity_score true (extract_name_parts ("x c".toList)).2
                  (candRestTok ⟨0, "a b c".toList, none, none, none, none, 1⟩)) / 2]
          else []) :=
  ⟨by decide, claim_C8 true ("x c".toList) _ (by decide)⟩

/-- With a working connection, a non-empty term (the `elif search_term:`
truthiness guard) and a succeeding exact query that finds rows, the fetch
returns exactly those rows. -/
theorem fetch_exact_rows (u : Bool) (s : Store) (term : Str)
    (hc : s.connectFails = false) (ht : term ≠ [])
    (hx : s.exactFails = false) (hne : exactRows s.db term ≠ []) :
    fetch_employees_ai u s term = .ok (exactRows s.db term) := by
  unfold fetch_employees_ai
  have hti : term.isEmpty = false := by
    cases term with
    | nil => exact absurd rfl ht
    | cons c cs => rfl
  rw [hc, hti, hx]
  dsimp only
  have hie : (exactRows s.db term).isEmpty = false := by
    cases hrows : exactRows s.db term with
    | nil => exact absurd hrows hne
    | cons x xs => rfl
  rw [hie]
  rfl

/-- With a working connection, a non-empty term, a succeeding exact query
that finds nothing, and a succeeding active query, the fetch returns the
top five fuzzy matches over the active records. -/
theorem fetch_fallback_rows (u : Bool) (s : Store) (term : Str)
    (hc : s.connectFails = false) (ht : term ≠ [])
    (hx : s.exactFails = false)
    (h0 : exactRows s.db term = []) (ha : s.activeFails = false) :
    fetch_employees_ai u s term =
      .ok (((fuzzy_match_employee u term (s.db.filter fun e => e.status = 1)
        (6 / 10)).take 5).map (fun m => m.employee)) := by
  unfold fetch_employees_ai
  have hti : term.isEmpty = false := by
    cases term with
    | nil => exact absurd rfl ht
    | cons c cs => rfl
  rw [hc, hti, hx]
  dsimp only
  rw [h0, ha]
  rfl

/-- Claim C1: for a non-empty search term (an empty one is stopped by the
`elif search_term:` guard and fetches nothing), when the exact substring
query returns at least one row the fetch result is exactly that row set
(the fuzzy matcher plays no part in it); the fuzzy fallback runs only on a
zero-row exact result, only over the active-status records, and
contributes at most the top five ranked fuzzy matches. -/
theorem claim_C1 (u : Bool) (s : Store) (term : Str)
    (hc : s.connectFails = false) (ht : term ≠ [])
    (hx : s.exactFails = false) :
    (exactRows s.db term ≠ [] →
      fetch_employees_ai u s term = .ok (exactRows s.db term)) ∧
    (exactRows s.db term = [] → s.activeFails = false →
      fetch_employees_ai u s term =
          .ok (((fuzzy_match_employee u term (s.db.filter fun e => e.status = 1)
            (6 / 10)).take 5).map (fun m => m.employee)) ∧
        (((fuzzy_match_employee u term (s.db.filter fun e => e.status = 1)
            (6 / 10)).take 5).map (fun m => m.employee)).length ≤ 5 ∧
        ∀ e2 ∈ ((fuzzy_match_employee u term (s.db.filter fun e => e.status = 1)
            (6 / 10)).take 5).map (fun m => m.employee), e2.status = 1) := by
  constructor
  · exact fetch_exact_rows u s term hc ht hx
  · intro h0 ha
    refine ⟨fetch_fallback_rows u s term hc ht hx h0 ha, ?_, ?_⟩
    · rw [List.length_map]
      have := List.length_take 5 (fuzzy_match_employee u term
        (s.db.filter fun e => e.status = 1) (6 / 10))
      omega
    · intro e2 he2
      rcases List.mem_map.mp he2 with ⟨m, hm, rfl⟩
      have hm2 : m ∈ fuzzy_match_employee u term
          (s.db.filter fun e => e.status = 1) (6 / 10) :=
        List.take_subset 5 _ hm
      have hmem := (mem_fuzzy_match u term _ _ m hm2).1
      have := List.mem_filter.mp hmem
      exact of_decide_eq_true this.2

/-- Instantiation of claim C1: a store whose exact query finds a row
short-circuits to that row set. -/
theorem claim_C1_witness :
    fetch_employees_ai false
        ⟨[⟨1, "John Doe".toList, none, none, none, none, 1⟩], false, false, false⟩
        ("jo".toList) =
      .ok (exactRows [⟨1, "John Doe".toList, none, none, none, none, 1⟩]
        ("jo".toList)) :=
  (claim_C1 false
    ⟨[⟨1, "John Doe".toList, none, none, none, none, 1⟩], false, false, false⟩
    ("jo".toList) rfl (by decide) rfl).1 (by decide)

/-- Reduction of the resolver verdict on two or more candidates with no
context supplied. -/
theorem resolveCore_two_none (a b : Employee) (rest : List Employee) (sn : Str) :
    resolveCore (a :: b :: rest) none sn =
      ResolutionResult.ambiguous (a :: b :: rest)
        (foundMsg (a :: b :: rest).length) := rfl

/-- Reduction of the resolver verdict on two or more candidates with a
context supplied. -/
theorem resolveCore_two_some (a b : Employee) (rest : List Employee)
    (c : Str) (sn : Str) :
    resolveCore (a :: b :: rest) (some c) sn =
      (if c.isEmpty then
        ResolutionResult.ambiguous (a :: b :: rest)
          (foundMsg (a :: b :: rest).length)
      else
        match ctxFilter c (a :: b :: rest) with
        | [f] => ResolutionResult.resolved f
        | _ => ResolutionResult.ambiguous (a :: b :: rest)
            (foundMsg (a :: b :: rest).length)) := rfl

/-- Claim C2: with two or more working candidates, a supplied non-empty
context that narrows the set to exactly one candidate resolves to that
candidate; in every other case the verdict is ambiguous and carries the
unfiltered original candidate list with the count message. -/
theorem claim_C2 (emps : List Employee) (ctx : Option Str) (sn : Str)
    (h2 : 2 ≤ emps.length) :
    (∀ c e, ctx = some c → c ≠ [] → ctxFilter c emps = [e] →
        resolveCore emps ctx sn = .resolved e) ∧
    (∀ c, ctx = some c → c ≠ [] → (ctxFilter c emps).length ≠ 1 →
        resolveCore emps ctx sn = .ambiguous emps (foundMsg emps.length)) ∧
    ((ctx = none ∨ ctx = some []) →
        resolveCore emps ctx sn = .ambiguous emps (foundMsg emps.length)) := by
  cases emps with
  | nil => simp at h2
  | cons a tl =>
    cases tl with
    | nil => simp at h2
    | cons b rest =>
      refine ⟨?_, ?_, ?_⟩
      · intro c e hctx hc hfilter
        subst hctx
        rw [resolveCore_two_some]
        have hie : c.isEmpty = false := by
          cases c with
          | nil => exact absurd rfl hc
          | cons d ds => rfl
        rw [hie]
        simp only [Bool.false_eq_true, if_false]
        rw [hfilter]
      · intro c hctx hc hlen
        subst hctx
        rw [resolveCore_two_some]
        have hie : c.isEmpty = false := by
          cases c with
          | nil => exact absurd rfl hc
          | cons d ds => rfl
        rw [hie]
        simp only [Bool.false_eq_true, if_false]
        cases hfs : ctxFilter c (a :: b :: rest) with
        | nil => rfl
        | cons f fs =>
          cases fs with
          | nil =>
            refine absurd ?_ hlen
            rw [hfs]
            rfl
          | cons f2 fs2 => rfl
      · intro h
        rcases h with rfl | rfl
        · rw [resolveCore_two_none]
        · rw [resolveCore_two_some]
          rfl

/-- Instantiation of claim C2: a context matching one designation resolves
the two-candidate set to that employee. -/
theorem claim_C2_witness :
    resolveCore
        [⟨1, "Jo A".toList, some ("dev".toList), none, none, none, 1⟩,
         ⟨2, "Jo B".toList, some ("boss".toList), none, none, none, 1⟩]
        (some ("boss".toList)) ("jo".toList) =
      .resolved ⟨2, "Jo B".toList, some ("boss".toList), none, none, none, 1⟩ :=
  (claim_C2
    [⟨1, "Jo A".toList, some ("dev".toList), none, none, none, 1⟩,
     ⟨2, "Jo B".toList, some ("boss".toList), none, none, none, 1⟩]
    (some ("boss".toList)) ("jo".toList) (by decide)).1
    ("boss".toList) _ rfl (by decide) (by decide)

/-- Claim C9, counterexample: a connectivity failure of the store is
raised by `get_connection()` before the `try` block of
`fetch_employees_ai`, so it propagates through `resolve_employee_ai` as a
fault instead of degrading to a not-found verdict. -/
theorem claim_C9_counterexample :
    resolve_employee_ai false ⟨[], true, false, false⟩ ("x".toList) none =
        .error () ∧
      ∀ r, resolve_employee_ai false ⟨[], true, false, false⟩ ("x".toList) none ≠
        .ok r := by
  constructor
  · rfl
  · intro r h
    rw [show resolve_employee_ai false ⟨[], true, false, false⟩ ("x".toList) none =
      .error () from rfl] at h
    exact Except.noConfusion h

/-- Claim C9, amended: once a connection is established, a failing query
is treated as an empty result set: if the exact query fails, or if it
finds nothing and the active-set query fails, resolution returns the
not-found verdict instead of a fault.  Connection-establishment failures,
by contrast, propagate (see the counterexample). -/
theorem claim_C9 (u : Bool) (s : Store) (term : Str) (ctx : Option Str)
    (hc : s.connectFails = false) :
    (s.exactFails = true →
      resolve_employee_ai u s term ctx = .ok (.notFound (notFoundMsg term))) ∧
    (s.exactFails = false → exactRows s.db term = [] → s.activeFails = true →
      resolve_employee_ai u s term ctx = .ok (.notFound (notFoundMsg term))) := by
  constructor
  · intro hx
    cases term with
    | nil =>
      unfold resolve_employee_ai fetch_employees_ai
      rw [hc]
      rfl
    | cons c cs =>
      unfold resolve_employee_ai fetch_employees_ai
      rw [hc, hx]
      rfl
  · intro hx h0 ha
    cases term with
    | nil =>
      unfold resolve_employee_ai fetch_employees_ai
      rw [hc]
      rfl
    | cons c cs =>
      unfold resolve_employee_ai fetch_employees_ai
      rw [hc, hx]
      dsimp only
      rw [h0, ha]
      rfl

/-- Instantiation of the amended claim C9 at a store whose exact query
fails. -/
theorem claim_C9_witness :
    resolve_employee_ai false ⟨[], false, true, false⟩ ("x".toList) none =
      .ok (.notFound (notFoundMsg ("x".toList))) :=
  (claim_C9 false ⟨[], false, true, false⟩ ("x".toList) none rfl).1 rfl

/-- Claim C10, counterexample: the empty search term is a substring of
every record field, so an inactive record "matches" it, yet the
`elif search_term:` guard returns `[]` without querying: the inactive
matching record is not in the working candidate set and resolution is
not-found, not resolved. -/
theorem claim_C10_counterexample :
    empMatchesTerm []
        (⟨7, "Old Guy".toList, none, none, none, none, 0⟩ : Employee) = true ∧
      (⟨7, "Old Guy".toList, none, none, none, none, 0⟩ : Employee).status ≠ 1 ∧
      fetch_employees_ai false
          ⟨[⟨7, "Old Guy".toList, none, none, none, none, 0⟩], false, false, false⟩
          [] = .ok [] ∧
      resolve_employee_ai false
          ⟨[⟨7, "Old Guy".toList, none, none, none, none, 0⟩], false, false, false⟩
          [] none =
        .ok (.notFound (notFoundMsg [])) :=
  ⟨by decide, by decide, rfl, rfl⟩

/-- Claim C10, amended: for every non-empty search term (the empty term is
cut off by the `elif search_term:` guard before any query), the exact
substring query applies no status filter, so an inactive record matching
the term is part of the working candidate set; in particular, when it is
the only match, resolution returns it as resolved. -/
theorem claim_C10 (u : Bool) (s : Store) (term : Str) (e : Employee)
    (hc : s.connectFails = false) (ht : term ≠ []) (hx : s.exactFails = false)
    (he : e ∈ s.db) (hm : empMatchesTerm term e = true) (hst : e.status ≠ 1) :
    e ∈ exactRows s.db term ∧
      fetch_employees_ai u s term = .ok (exactRows s.db term) ∧
      (exactRows s.db term = [e] →
        resolve_employee_ai u s term none = .ok (.resolved e)) := by
  have hmem : e ∈ exactRows s.db term := List.mem_filter.mpr ⟨he, hm⟩
  have hne : exactRows s.db term ≠ [] := List.ne_nil_of_mem hmem
  have hfetch := fetch_exact_rows u s term hc ht hx hne
  refine ⟨hmem, hfetch, ?_⟩
  intro h1
  unfold resolve_employee_ai
  rw [hfetch, h1]
  rfl

/-- Instantiation of the amended claim C10: an inactive employee matching
the non-empty search term is returned as resolved. -/
theorem claim_C10_witness :
    (⟨7, "Old Guy".toList, none, none, none, none, 0⟩ : Employee).status ≠ 1 ∧
      resolve_employee_ai false
          ⟨[⟨7, "Old Guy".toList, none, none, none, none, 0⟩], false, false, false⟩
          ("old".toList) none =
        .ok (.resolved ⟨7, "Old Guy".toList, none, none, none, none, 0⟩) :=
  ⟨by decide,
    (claim_C10 false
      ⟨[⟨7, "Old Guy".toList, none, none, none, none, 0⟩], false, false, false⟩
      ("old".toList) ⟨7, "Old Guy".toList, none, none, none, none, 0⟩
      rfl (by decide) rfl (by decide) (by decide) (by decide)).2.2 (by decide)⟩

end TTLeave
